import Mathlib

/-!
Verification development for the genomic_file_string_replacement repository.

The Python sources are shallowly embedded:
* `multiprocess_handling.dumb_scheduler` becomes a fuel-indexed state machine
  over `SchedState`, with the external processes abstracted by two oracles:
  `dur j` (number of polling cycles after launch before job `j`'s process is
  observed to have exited) and `code j` (the exit code of job `j`).
* `generate_commands.get_sed_cmd_string`, `rand_string`,
  `generate_new_filename`, `fastq_cmd`, `textfile_cmd`, `bam_cmd` and
  `generate_commands` become pure functions; Python strings are `List Char`
  and the filesystem is an explicit state (`FS`) threaded through the one
  function that mutates it.
* `file_replace_string.replace_string` and `read_string_replacement_file`
  become pure functions over `List Char`, with Python `str.replace`,
  `str.strip`, `str.split` and dict insertion re-implemented with Python
  semantics.
-/

namespace GenomicReplace

/-! ## Scheduler state (multiprocess_handling.py)

The source tags each job with one of the ints COMPLETE = 1, WAITING = -1,
RUNNING = 0 in the numpy array `job_states`, and keeps the launched `Popen`
handles in `processes`.  Here the tag and the information carried by the
process handle (remaining cycles until exit is observable; exit code) are
merged into one inductive per-job state. -/

inductive JState where
  | waiting
  | running (remaining : Nat)
  | complete (code : Int)
deriving DecidableEq, Repr

def JState.isRunningB : JState → Bool
  | .running _ => true
  | _ => false

def JState.isCompleteB : JState → Bool
  | .complete _ => true
  | _ => false

structure SchedState where
  job_states : List JState
  remaining_job_index : List Nat
deriving DecidableEq, Repr

/-- `np.sum(job_states == RUNNING)` -/
def runningCount (s : SchedState) : Nat :=
  s.job_states.countP JState.isRunningB

/-- `np.all(job_states == COMPLETE)` (true on an empty array). -/
def allCompleteB (s : SchedState) : Bool :=
  s.job_states.all JState.isCompleteB

/-- Python `list.pop()`: remove and return the last element. -/
def popLast (l : List Nat) : Option (Nat × List Nat) :=
  match l.getLast? with
  | some x => some (x, l.dropLast)
  | none => none

/-- One admission: `job_index = remaining_job_index.pop()`, launch the
process (`cmd_runner`), `job_states[job_index] = RUNNING`. -/
def launch (dur : Nat → Nat) (s : SchedState) (j : Nat) (rest : List Nat) :
    SchedState :=
  ⟨s.job_states.set j (JState.running (dur j)), rest⟩

/-- The inner admission loop
`while np.sum(job_states == RUNNING) < max_process_num and WAITING in job_states`.
The fuel is the length of `remaining_job_index`; each iteration pops one
index, so the fuel never runs out on the states the scheduler reaches (a pop
from an empty list would raise IndexError in the source; it is modelled as a
no-op).  The returned list records the state after each individual launch
(each observed instant of the admission phase). -/
def admitLoopAux (dur : Nat → Nat) (N : Nat) :
    Nat → SchedState → SchedState × List SchedState
  | 0, s => (s, [])
  | fuel + 1, s =>
    if runningCount s < N ∧ JState.waiting ∈ s.job_states then
      match popLast s.remaining_job_index with
      | some (j, rest) =>
        let s' := launch dur s j rest
        let p := admitLoopAux dur N fuel s'
        (p.1, s' :: p.2)
      | none => (s, [])
    else (s, [])

def admitLoop (dur : Nat → Nat) (N : Nat) (s : SchedState) :
    SchedState × List SchedState :=
  admitLoopAux dur N s.remaining_job_index.length s

/-- One `proc.poll()` observation of a single job: `None` while the process
still runs (modelled by decrementing the remaining cycle count), otherwise
the exit code is recorded and the job is marked COMPLETE. -/
def pollJob (code : Nat → Int) (i : Nat) : JState → JState
  | .running 0 => JState.complete (code i)
  | .running (r + 1) => JState.running r
  | st => st

/-- The polling `for` loop over the launched processes: every RUNNING job is
polled; on exit the return code is recorded, the job marked COMPLETE, and a
warning logged when the code is non-zero (the returned `List Nat` collects
the indices of the warned-about jobs). -/
def pollStates (code : Nat → Int) : Nat → List JState → List JState × List Nat
  | _, [] => ([], [])
  | i, st :: rest =>
    let p := pollStates code (i + 1) rest
    match st with
    | .running 0 =>
      (JState.complete (code i) :: p.1, if code i = 0 then p.2 else i :: p.2)
    | .running (r + 1) => (JState.running r :: p.1, p.2)
    | st' => (st' :: p.1, p.2)

def pollCycle (code : Nat → Int) (s : SchedState) : SchedState × List Nat :=
  let p := pollStates code 0 s.job_states
  (⟨p.1, s.remaining_job_index⟩, p.2)

/-- One iteration of the outer `while` loop: admission phase, then one poll
sweep (the `time.sleep` is irrelevant to the state).  Returns the new state,
the list of observed intermediate states, and the warnings issued. -/
def schedStep (dur : Nat → Nat) (code : Nat → Int) (N : Nat) (s : SchedState) :
    SchedState × List SchedState × List Nat :=
  let a := admitLoop dur N s
  let p := pollCycle code a.1
  (p.1, a.2 ++ [p.1], p.2)

/-- The outer `while not np.all(job_states == COMPLETE)` loop, fuel-indexed.
The trace component collects every observed state of the run. -/
def runSched (dur : Nat → Nat) (code : Nat → Int) (N : Nat) :
    Nat → SchedState → SchedState × List SchedState × List Nat
  | 0, s => (s, [s], [])
  | fuel + 1, s =>
    if allCompleteB s then (s, [s], [])
    else
      let st := schedStep dur code N s
      let r := runSched dur code N fuel st.1
      (r.1, s :: st.2.1 ++ r.2.1, st.2.2 ++ r.2.2)

/-- `job_states = np.full(num_jobs, WAITING)`,
`remaining_job_index = list(range(num_jobs - 1, -1, -1))`. -/
def initState (n : Nat) : SchedState :=
  ⟨List.replicate n JState.waiting, (List.range n).reverse⟩

/-- `dumb_scheduler`: run from the initial state. -/
def dumb_scheduler (dur : Nat → Nat) (code : Nat → Int) (n N fuel : Nat) :
    SchedState × List SchedState × List Nat :=
  runSched dur code N fuel (initState n)

/-! ## Python string primitives

Python `str` is modelled as `List Char`; `str.replace`, `str.strip`,
`str.split` and dict insertion are re-implemented with Python semantics. -/

/-- Python `s.replace(old, new)` for a non-empty `old`: scan left to right,
replacing each non-overlapping occurrence.  The fuel is the length of the
scanned string, which bounds the recursion. -/
def replaceAux (olds news : List Char) : Nat → List Char → List Char
  | _, [] => []
  | 0, s => s
  | fuel + 1, c :: rest =>
    if olds.isPrefixOf (c :: rest) then
      news ++ replaceAux olds news fuel ((c :: rest).drop olds.length)
    else c :: replaceAux olds news fuel rest

/-- Python `s.replace(old, new)`.  An empty `old` inserts `new` before each
character and at the end, as CPython does. -/
def pyReplace (olds news s : List Char) : List Char :=
  if olds = [] then news ++ s.foldr (fun c acc => c :: (news ++ acc)) []
  else replaceAux olds news s.length s

/-- `file_replace_string.replace_string`: apply each `key → val` clause of
the dict, in iteration order, to the result of the previous clause. -/
def replace_string (s : List Char) (d : List (List Char × List Char)) :
    List Char :=
  d.foldl (fun acc p => pyReplace p.1 p.2 acc) s

/-- The character class stripped by Python `str.strip()`. -/
def pyIsSpace (c : Char) : Bool :=
  c == ' ' || c == '\t' || c == '\n' || c == '\r' ||
    c == Char.ofNat 11 || c == Char.ofNat 12

/-- Python `s.strip()`. -/
def pyStrip (s : List Char) : List Char :=
  ((s.dropWhile pyIsSpace).reverse.dropWhile pyIsSpace).reverse

/-- Python `s.split(sep)` for a single-character separator: split at every
occurrence, keeping empty fields. -/
def pySplit (sep : Char) : List Char → List (List Char)
  | [] => [[]]
  | c :: rest =>
    match pySplit sep rest with
    | [] => [[c]]
    | w :: ws => if c = sep then [] :: w :: ws else (c :: w) :: ws

/-- `key, val = line.strip().split(sep)`: succeeds exactly when the stripped
line splits into two fields (otherwise Python raises ValueError). -/
def parseLine (sep : Char) (line : List Char) :
    Option (List Char × List Char) :=
  match pySplit sep (pyStrip line) with
  | [k, v] => some (k, v)
  | _ => none

/-- Python `d[key] = val` on a dict modelled as an ordered association list
with unique keys: an existing binding is updated in place, a new key is
appended at the end. -/
def dictInsert : List (List Char × List Char) → List Char → List Char →
    List (List Char × List Char)
  | [], k, v => [(k, v)]
  | p :: rest, k, v =>
    if p.1 = k then (k, v) :: rest else p :: dictInsert rest k v

/-- Python `d.get(key)` on the same dict model. -/
def dictGet : List (List Char × List Char) → List Char → Option (List Char)
  | [], _ => none
  | p :: rest, k => if p.1 = k then some p.2 else dictGet rest k

/-- `file_replace_string.read_string_replacement_file`, with the file
already decomposed into its lines (reading from disk is the out-of-scope
part): parse each line and insert it into the dict; `none` when some line
does not split into exactly two fields. -/
def read_string_replacement_file (lines : List (List Char)) :
    Option (List (List Char × List Char)) :=
  lines.foldlM
    (fun d line => (parseLine '\t' line).map (fun p => dictInsert d p.1 p.2))
    []

/-! ## Command synthesis (generate_commands.py) -/

/-- Python `string.punctuation`, in its fixed canonical order. -/
def punctuation : List Char :=
  ['!', Char.ofNat 34, '#', '$', '%', '&', Char.ofNat 39, '(', ')', '*',
   '+', ',', '-', '.', '/', ':', ';', '<', '=', '>', '?', '@', '[',
   Char.ofNat 92, ']', '^', '_', Char.ofNat 96, Char.ofNat 123, '|',
   Char.ofNat 125, '~']

/-- `set(''.join(list(replacement_dict.keys()) + list(replacement_dict.values())))`
(as a list; only membership is ever used). -/
def allchar (d : List (List Char × List Char)) : List Char :=
  ((d.map Prod.fst) ++ (d.map Prod.snd)).flatten

/-- The delimiter-selection loop of `get_sed_cmd_string`:
`for punc in '/' + string.punctuation`, return the first candidate absent
from all keys and values, `none` when every candidate collides. -/
def get_sed_separator (d : List (List Char × List Char)) : Option Char :=
  ('/' :: punctuation).find? (fun c => !((allchar d).contains c))

/-- `generate_commands.get_sed_cmd_string`: `RuntimeError` (modelled as
`Except.error`) when no safe separator exists, otherwise `"sed -e"`
followed by one ` s{sep}{key}{sep}{val}{sep}g ` clause per dict entry in
iteration order. -/
def get_sed_cmd_string (d : List (List Char × List Char)) :
    Except (List Char) (List Char) :=
  match get_sed_separator d with
  | none => Except.error ("Not safe `sed` separator in the set: ".data ++ punctuation)
  | some sep =>
    Except.ok (d.foldl
      (fun acc p =>
        acc ++ " s".data ++ [sep] ++ p.1 ++ [sep] ++ p.2 ++ [sep] ++ "g ".data)
      "sed -e".data)

/-- `string.ascii_uppercase + string.digits`, the alphabet sampled by
`rand_string`. -/
def randAlphabet : List Char :=
  "ABCDEFGHIJKLMNOPQRSTUVWXYZ0123456789".data

/-- `generate_commands.rand_string`: `n` independent uniform choices from
`randAlphabet`.  The randomness source is abstracted as `r : Nat → Nat`;
`random.choice` always returns an element of the sequence, modelled by
indexing modulo its length. -/
def rand_string (r : Nat → Nat) (n : Nat) : List Char :=
  (List.range n).map fun i => randAlphabet.getD (r i % randAlphabet.length) 'A'

/-- `val = rand_string(n=rand_string_len) if val is None else val` inside
`generate_new_filename`. -/
def resolved_val (r : Nat → Nat) (len : Nat) : Option (List Char) → List Char
  | some v => v
  | none => rand_string r len

/-- `generate_commands.generate_new_filename`.  The dict may bind a key to
`none` (an unset value); each such value is resolved to a fresh random
token.  `r i` is the randomness consumed by the `i`-th dict entry. -/
def generate_new_filename (r : Nat → Nat → Nat) (infilename : List Char)
    (replacement_dict : Option (List (List Char × Option (List Char))))
    (remove_fields : Option (List Nat)) (filename_sep : Char)
    (rand_string_len : Nat) : List Char :=
  let newfilename :=
    match replacement_dict with
    | none => infilename
    | some d =>
      d.enum.foldl
        (fun acc q =>
          pyReplace q.2.1 (resolved_val (r q.1) rand_string_len q.2.2) acc)
        infilename
  let rf := (remove_fields).getD []
  let fields := (pySplit filename_sep newfilename).enum.filter
    (fun q => decide (q.1 ∉ rf) && decide (q.2 ≠ []))
  List.intercalate [filename_sep] (fields.map Prod.snd)

/-! ## Filesystem model and the file-walking synthesizer

The only filesystem facts the synthesis code consults or changes are which
directories exist (`os.path.isdir` / `os.mkdir`) and which files or links
exist (`os.path.isfile` / `os.path.islink`), so the filesystem is modelled
as those two sets. -/

structure FS where
  dirs : List (List Char)
  files : List (List Char)
deriving DecidableEq, Repr

/-- `os.path.join` for a directory written without a trailing slash and a
relative second component, the shape used throughout the source. -/
def os_path_join (a b : List Char) : List Char :=
  a ++ '/' :: b

/-- `os.path.relpath(path, start)` for the paths produced by walking
`start`: either `start` itself (relative path `.`) or a path below it. -/
def os_path_relpath (path start : List Char) : List Char :=
  if path = start then ['.']
  else if (start ++ ['/']).isPrefixOf path then path.drop (start.length + 1)
  else path

/-- The `replace_string --infilepath ... --num_thread 1` command string
built (twice, verbatim) inside `generate_commands`. -/
def replace_cli_cmd (infilepath outfilepath replacement_file : List Char) :
    List Char :=
  "replace_string --infilepath ".data ++ infilepath ++
    " --outfilepath ".data ++ outfilepath ++
    " --replacement_file ".data ++ replacement_file ++
    "  --num_thread 1".data

/-- The body of the inner `for filename in files` loop of
`generate_commands`: filtering, conditional `os.mkdir` of the output
directory, and accumulation of the per-file command.
`os.path.realpath` is modelled as the identity (paths are taken already
canonical). -/
def processFile (replacement_file : List Char)
    (replacement_dict : List (List Char × List Char))
    (ignore_ext include_only_ext : List (List Char)) (use_symlink : Bool)
    (source_filelist : Option (List (List Char)))
    (root new_outdir : List Char) (acc : FS × List (List Char))
    (filename : List Char) : FS × List (List Char) :=
  let fs := acc.1
  let outfilename := replace_string filename replacement_dict
  let infilepath := os_path_join root filename
  let outfilepath := os_path_join new_outdir outfilename
  let has_included_extension :=
    include_only_ext.any (fun e => e.isSuffixOf filename)
  let included_in_filelist :=
    match source_filelist with
    | none => true
    | some fl => decide (infilepath ∈ fl)
  if !has_included_extension || !included_in_filelist then acc
  else
    let fs' :=
      if new_outdir ∈ fs.dirs then fs
      else { fs with dirs := new_outdir :: fs.dirs }
    let cmd :=
      if ".bam".data.isSuffixOf filename then
        replace_cli_cmd infilepath outfilepath replacement_file
      else if ignore_ext.any (fun e => e.isSuffixOf filename) then
        (if use_symlink then "ln -s ".data else "cp ".data) ++
          infilepath ++ " ".data ++ outfilepath
      else replace_cli_cmd infilepath outfilepath replacement_file
    (fs', acc.2 ++ [cmd])

/-- `generate_commands.generate_commands`.  The `os.walk` enumeration is
supplied as data (`walk`: each visited root with its files — traversal is
the out-of-scope collaborator); everything from `os.path.relpath` on is the
function body.  Returns the filesystem after synthesis together with the
accumulated command list (each command is paired with `stdin = stdout =
None` in the source; the handles are omitted here since they are always
`None`). -/
def generate_commands (sourcedir : List Char)
    (source_filelist : Option (List (List Char)))
    (walk : List (List Char × List (List Char)))
    (outdir replacement_file : List Char)
    (replacement_dict : List (List Char × List Char))
    (ignore_ext include_only_ext : List (List Char)) (use_symlink : Bool)
    (fs : FS) : FS × List (List Char) :=
  walk.foldl
    (fun acc entry =>
      let new_outdir :=
        os_path_join outdir
          (replace_string (os_path_relpath entry.1 sourcedir)
            replacement_dict)
      entry.2.foldl
        (processFile replacement_file replacement_dict ignore_ext
          include_only_ext use_symlink source_filelist entry.1 new_outdir)
        acc)
    (fs, [])

/-- `generate_commands.fastq_cmd`: the copy/symlink command, extended with
a second copy/symlink when an `.md5` sidecar exists beside the source
(`os.path.isfile or os.path.islink`, both covered by `FS.files`).  Reads
the filesystem, never changes it. -/
def fastq_cmd (fs : FS) (infilepath outfilepath : List Char)
    (use_symlink : Bool) : List Char :=
  let cmd := if use_symlink then "ln -s".data else "cp".data
  let cmd_string := cmd ++ " ".data ++ infilepath ++ " ".data ++ outfilepath
  let md5path_old := infilepath ++ ".md5".data
  let md5path_new := outfilepath ++ ".md5".data
  if md5path_old ∈ fs.files then
    cmd_string ++ " ; ".data ++ cmd ++ " ".data ++ md5path_old ++ " ".data ++
      md5path_new
  else cmd_string

/-- `generate_commands.textfile_cmd`: pure command construction; the only
failure is the `RuntimeError` propagated from `get_sed_cmd_string`. -/
def textfile_cmd (infilepath outfilepath : List Char)
    (replacement_dict : List (List Char × List Char)) (is_gzip : Bool) :
    Except (List Char) (List Char) :=
  (get_sed_cmd_string replacement_dict).map fun sed_cmd_string =>
    if is_gzip then
      "gzip -cd ".data ++ infilepath ++ " | ".data ++ sed_cmd_string ++
        " | gzip -c > ".data ++ outfilepath
    else
      sed_cmd_string ++ " ".data ++ infilepath ++ " > ".data ++ outfilepath

/-- `generate_commands.bam_cmd`: pure command construction; the only
failure is the `RuntimeError` propagated from `get_sed_cmd_string`. -/
def bam_cmd (inbam_path outbam_path : List Char)
    (replacement_dict : List (List Char × List Char)) (num_thread : Nat)
    (remove_pg : Bool) : Except (List Char) (List Char) :=
  (get_sed_cmd_string replacement_dict).map fun sed_cmd_string =>
    let nt := (toString num_thread).data
    let edit_cmd :=
      "samtools view -h -@ ".data ++ nt ++ " ".data ++ inbam_path ++
        " | ".data ++ sed_cmd_string ++
        " | samtools view -b -h -@ ".data ++ nt ++ " ".data
    if remove_pg then
      "samtools reheader -P <(samtools view -H ".data ++ inbam_path ++
        " | grep -v ".data ++ [Char.ofNat 39] ++ "^@PG".data ++
        [Char.ofNat 39] ++ " | ".data ++ sed_cmd_string ++ ") <(".data ++
        edit_cmd ++ ") > ".data ++ outbam_path
    else edit_cmd ++ " > ".data ++ outbam_path

/-! ## The run_command subcommand (main.py) -/

/-- `do_multiprocess = (args.multiprocessing > 1)`. -/
def do_multiprocess (n : Int) : Bool :=
  n > 1

/-- The command-file parsing loop of `run_command`: strip each line, skip
the empty ones. -/
def parseCmdLines (lines : List (List Char)) : List (List Char) :=
  lines.filterMap fun l =>
    let s := pyStrip l
    if s = [] then none else some s

/-- The sequential branch of `run_command`: run the jobs one at a time in
order; `assert return_code == 0` aborts at the first non-zero exit code.
`rc i` is the exit code of the `i`-th command; the result lists the indices
of the jobs actually launched, in launch order. -/
def seqRunAux (rc : Nat → Int) : Nat → Nat → List Nat
  | _, 0 => []
  | i, n + 1 => i :: (if rc i = 0 then seqRunAux rc (i + 1) n else [])

/-- Which job indices `run_command` launches: all of them in the pool
branch (`multiprocessing > 1`), the jobs up to and including the first
failure in the sequential branch. -/
def run_command_launches (rc : Nat → Int) (multiprocessing : Int)
    (lines : List (List Char)) : List Nat :=
  let cmd_params := parseCmdLines lines
  if do_multiprocess multiprocessing then List.range cmd_params.length
  else seqRunAux rc 0 cmd_params.length

/-- The value of the last occurrence of `k` among the parsed `(key, value)`
pairs — the spec's "duplicate keys: last occurrence wins" rule, stated
directly, to be compared against what the source's dict building does. -/
def lastOccurrenceValue : List (List Char × List Char) → List Char →
    Option (List Char)
  | [], _ => none
  | p :: rest, k =>
    match lastOccurrenceValue rest k with
    | some v => some v
    | none => if p.1 = k then some p.2 else none

/-! ## Proof-side definitions for the scheduler -/

/-- The per-job component of the termination measure: a WAITING job still
costs its whole duration plus the launch and the completing poll; a RUNNING
job costs its remaining cycles plus the completing poll; a COMPLETE job
costs nothing. -/
def jmeasure (dur : Nat → Nat) (i : Nat) : JState → Nat
  | .waiting => dur i + 2
  | .running r => r + 1
  | .complete _ => 0

/-- Sum of `jmeasure` over the job list, the job at the head having
absolute index `i`. -/
def measureFrom (dur : Nat → Nat) : Nat → List JState → Nat
  | _, [] => 0
  | i, st :: rest => jmeasure dur i st + measureFrom dur (i + 1) rest

def schedMeasure (dur : Nat → Nat) (s : SchedState) : Nat :=
  measureFrom dur 0 s.job_states

/-- The reachable-state invariant of `dumb_scheduler`: the job list keeps
its length, and for some admission frontier `k` the pending pop stack is
`[n-1, ..., k]` while exactly the jobs with index `≥ k` are WAITING. -/
def SchedInv (n : Nat) (s : SchedState) : Prop :=
  s.job_states.length = n ∧
    ∃ k, k ≤ n ∧
      s.remaining_job_index = (List.range' k (n - k)).reverse ∧
      ∀ i, i < n → (s.job_states[i]? = some JState.waiting ↔ k ≤ i)

/-! ## Theorems -/

theorem mem_of_getElem?_eq {α : Type _} {l : List α} {n : Nat} {a : α}
    (h : l[n]? = some a) : a ∈ l := by
  obtain ⟨hlt, rfl⟩ := List.getElem?_eq_some.mp h
  exact List.getElem_mem hlt

theorem getElem?_of_mem {α : Type _} {l : List α} {a : α} (h : a ∈ l) :
    ∃ n : Nat, l[n]? = some a := by
  obtain ⟨i, hi, rfl⟩ := List.getElem_of_mem h
  exact ⟨i, List.getElem?_eq_getElem hi⟩

theorem randAlphabet_getD_mem (i : Nat) :
    randAlphabet.getD i 'A' ∈ randAlphabet := by
  by_cases h : i < randAlphabet.length
  · rw [List.getD_eq_getElem?_getD, List.getElem?_eq_getElem h]
    exact List.getElem_mem h
  · rw [List.getD_eq_getElem?_getD, List.getElem?_eq_none (by omega)]
    decide

/-- C4: for every replacement map, the delimiter selector returns `/` when
`/` occurs in no key or value; otherwise the first punctuation character in
the fixed canonical order absent from all keys and values; it fails (and
`get_sed_cmd_string` raises) exactly when every punctuation candidate
occurs in some key or value; and on an all-alphanumeric map it always
succeeds, with `/`. -/
theorem delimiter_selector (d : List (List Char × List Char)) :
    ('/' ∉ allchar d → get_sed_separator d = some '/') ∧
    ('/' ∈ allchar d →
      get_sed_separator d =
        punctuation.find? (fun c => !((allchar d).contains c))) ∧
    (get_sed_separator d = none ↔ ∀ c ∈ punctuation, c ∈ allchar d) ∧
    ((get_sed_cmd_string d).isOk = false ↔ ∀ c ∈ punctuation, c ∈ allchar d) ∧
    ((∀ c ∈ allchar d, c.isAlphanum) → get_sed_separator d = some '/') := by
  have hslash : '/' ∈ punctuation := by decide
  have habs : '/' ∉ allchar d → get_sed_separator d = some '/' := by
    intro h
    unfold get_sed_separator
    rw [List.find?_cons_of_pos]
    simpa using h
  have hnone : get_sed_separator d = none ↔ ∀ c ∈ punctuation, c ∈ allchar d := by
    unfold get_sed_separator
    rw [List.find?_eq_none]
    constructor
    · intro h c hc
      have := h c (List.mem_cons_of_mem _ hc)
      simpa using this
    · intro h c hc
      rcases List.mem_cons.mp hc with rfl | hc
      · simpa using h _ hslash
      · simpa using h _ hc
  refine ⟨habs, ?_, hnone, ?_, ?_⟩
  · intro h
    unfold get_sed_separator
    rw [List.find?_cons_of_neg]
    simpa using h
  · unfold get_sed_cmd_string
    rcases hsep : get_sed_separator d with _ | c <;>
      simp [Except.isOk, Except.toBool, ← hnone, hsep]
  · intro h
    refine habs (fun hmem => ?_)
    have := h _ hmem
    simp at this

theorem delimiter_selector_witness :
    ('/' ∉ allchar [("abc".data, "xyz".data)]) ∧
      get_sed_separator [("abc".data, "xyz".data)] = some '/' :=
  ⟨by decide, (delimiter_selector [("abc".data, "xyz".data)]).1 (by decide)⟩

/-- C6: the substitution applies the clauses of the map in iteration order,
each applied (globally, by Python `str.replace`) to the result of the
previous one; on the map `{"A": "B"}` the input `"AAA"` becomes `"BBB"`
(every occurrence replaced), and sequencing is visible on
`{"A": "B", "B": "C"}` applied to `"A"`, which yields `"C"`. -/
theorem replace_string_clauses :
    (∀ (s k v : List Char) (d : List (List Char × List Char)),
        replace_string s ((k, v) :: d) = replace_string (pyReplace k v s) d) ∧
    replace_string "AAA".data [("A".data, "B".data)] = "BBB".data ∧
    replace_string "A".data [("A".data, "B".data), ("B".data, "C".data)] =
      "C".data :=
  ⟨fun _ _ _ _ => rfl, by decide, by decide⟩

/-- C10: `rand_string r n` always has exactly `n` characters, each an ASCII
uppercase letter or a decimal digit; hence the token substituted by
`generate_new_filename` for an unset (None) map value contains no
punctuation character and no tab. -/
theorem rand_string_alphanumeric :
    (∀ (r : Nat → Nat) (n : Nat), (rand_string r n).length = n) ∧
    (∀ (r : Nat → Nat) (n : Nat), ∀ c ∈ rand_string r n,
        c.isUpper = true ∨ c.isDigit = true) ∧
    (∀ (r : Nat → Nat) (len : Nat), ∀ c ∈ resolved_val r len none,
        c ∉ punctuation ∧ c ≠ '\t') := by
  have hmem : ∀ (r : Nat → Nat) (n : Nat), ∀ c ∈ rand_string r n,
      c ∈ randAlphabet := by
    intro r n c hc
    simp only [rand_string, List.mem_map] at hc
    obtain ⟨i, _, rfl⟩ := hc
    exact randAlphabet_getD_mem _
  have halpha : ∀ c ∈ randAlphabet, c.isUpper = true ∨ c.isDigit = true := by
    decide
  have hclean : ∀ c ∈ randAlphabet, c ∉ punctuation ∧ c ≠ '\t' := by decide
  refine ⟨fun r n => by simp [rand_string], ?_, ?_⟩
  · intro r n c hc
    exact halpha c (hmem r n c hc)
  · intro r len c hc
    exact hclean c (hmem r len c hc)

theorem rand_string_alphanumeric_witness :
    'A' ∈ rand_string (fun _ => 0) 3 ∧
      (Char.isUpper 'A' = true ∨ Char.isDigit 'A' = true) :=
  ⟨by decide, rand_string_alphanumeric.2.1 (fun _ => 0) 3 'A' (by decide)⟩

theorem dictGet_dictInsert (d : List (List Char × List Char))
    (k v k' : List Char) :
    dictGet (dictInsert d k v) k' =
      if k' = k then some v else dictGet d k' := by
  induction d with
  | nil =>
    by_cases h : k' = k
    · simp [dictInsert, dictGet, h]
    · have h' : ¬ k = k' := fun hh => h hh.symm
      simp [dictInsert, dictGet, h, h']
  | cons p rest ih =>
    by_cases hp : p.1 = k
    · by_cases h : k' = k
      · simp [dictInsert, dictGet, hp, h]
      · have hk : ¬ k = k' := fun hh => h hh.symm
        have hp' : ¬ p.1 = k' := by rw [hp]; exact hk
        simp [dictInsert, dictGet, hp, h, hk, hp']
    · by_cases hq : p.1 = k'
      · have h : ¬ k' = k := fun hh => hp (hq.trans hh)
        simp [dictInsert, dictGet, hp, hq, h]
      · simp [dictInsert, dictGet, hp, hq, ih]

theorem dictGet_foldl_insert (ps : List (List Char × List Char))
    (d0 : List (List Char × List Char)) (k : List Char) :
    dictGet (ps.foldl (fun d p => dictInsert d p.1 p.2) d0) k =
      match lastOccurrenceValue ps k with
      | some v => some v
      | none => dictGet d0 k := by
  induction ps generalizing d0 with
  | nil => simp [lastOccurrenceValue]
  | cons p rest ih =>
    simp only [List.foldl_cons, ih, lastOccurrenceValue, dictGet_dictInsert]
    rcases hlv : lastOccurrenceValue rest k with _ | v
    · by_cases h : p.1 = k
      · have h2 : k = p.1 := h.symm
        simp only [hlv, if_pos h, if_pos h2]
      · have h' : ¬ k = p.1 := fun hh => h hh.symm
        simp only [hlv, if_neg h, if_neg h']
    · simp [hlv]

theorem read_foldlM_eq (lines : List (List Char))
    (d0 d : List (List Char × List Char))
    (h : lines.foldlM
        (fun d line => (parseLine '\t' line).map (fun p => dictInsert d p.1 p.2))
        d0 = some d) :
    ∃ ps, lines.mapM (parseLine '\t') = some ps ∧
      d = ps.foldl (fun d p => dictInsert d p.1 p.2) d0 := by
  induction lines generalizing d0 with
  | nil =>
    refine ⟨[], rfl, ?_⟩
    simpa [List.foldlM] using h.symm
  | cons line rest ih =>
    have hcons : (line :: rest).foldlM
        (fun d line => (parseLine '\t' line).map (fun p => dictInsert d p.1 p.2))
        d0 =
        ((parseLine '\t' line).map (fun p => dictInsert d0 p.1 p.2)) >>=
          fun b => rest.foldlM
            (fun d line =>
              (parseLine '\t' line).map (fun p => dictInsert d p.1 p.2)) b :=
      rfl
    rw [hcons] at h
    rcases hp : parseLine '\t' line with _ | p <;> rw [hp] at h
    · simp at h
    · simp only [Option.map_some', Option.some_bind] at h
      obtain ⟨ps, hps, hd⟩ := ih _ h
      exact ⟨p :: ps, by rw [List.mapM_cons, hp, hps]; rfl, hd⟩

/-- C8: whenever the replacement table parses (each stripped line splits
into exactly two tab-separated fields), the dict built by
`read_string_replacement_file` binds every key to the value of that key's
last occurrence in the file. -/
theorem read_replacement_last_wins (lines : List (List Char))
    (d ps : List (List Char × List Char))
    (hread : read_string_replacement_file lines = some d)
    (hps : lines.mapM (parseLine '\t') = some ps) (k : List Char) :
    dictGet d k = lastOccurrenceValue ps k := by
  obtain ⟨ps', hps', hd⟩ := read_foldlM_eq lines [] d hread
  rw [hps] at hps'
  obtain rfl := Option.some_injective _ hps'
  rw [hd, dictGet_foldl_insert]
  rcases lastOccurrenceValue ps k with _ | v <;> simp [dictGet]

theorem read_replacement_last_wins_witness :
    read_string_replacement_file ["a\t1".data, "b\t2".data, "a\t3".data] =
        some [("a".data, "3".data), ("b".data, "2".data)] ∧
      ["a\t1".data, "b\t2".data, "a\t3".data].mapM (parseLine '\t') =
        some [("a".data, "1".data), ("b".data, "2".data), ("a".data, "3".data)] ∧
      dictGet [("a".data, "3".data), ("b".data, "2".data)] "a".data =
        lastOccurrenceValue
          [("a".data, "1".data), ("b".data, "2".data), ("a".data, "3".data)]
          "a".data :=
  ⟨by decide, by decide,
    read_replacement_last_wins ["a\t1".data, "b\t2".data, "a\t3".data]
      [("a".data, "3".data), ("b".data, "2".data)]
      [("a".data, "1".data), ("b".data, "2".data), ("a".data, "3".data)]
      (by decide) (by decide) "a".data⟩

theorem seqRunAux_mem (rc : Nat → Int) :
    ∀ (n i j : Nat), j ∈ seqRunAux rc i n →
      i ≤ j ∧ ∀ t, i ≤ t → t < j → rc t = 0 := by
  intro n
  induction n with
  | zero => intro i j hj; simp [seqRunAux] at hj
  | succ n ih =>
    intro i j hj
    simp only [seqRunAux] at hj
    rcases List.mem_cons.mp hj with rfl | hj
    · exact ⟨le_refl j, fun t ht ht' => absurd (ht.trans_lt ht') (lt_irrefl _)⟩
    · by_cases h : rc i = 0
      · rw [if_pos h] at hj
        obtain ⟨hij, hall⟩ := ih (i + 1) j hj
        refine ⟨by omega, fun t ht ht' => ?_⟩
        rcases Nat.eq_or_lt_of_le ht with rfl | ht
        · exact h
        · exact hall t ht ht'
      · rw [if_neg h] at hj
        simp at hj

theorem seqRunAux_shape (rc : Nat → Int) :
    ∀ (n i : Nat), ∃ m, m ≤ n ∧ seqRunAux rc i n = List.range' i m := by
  intro n
  induction n with
  | zero => exact fun i => ⟨0, le_refl 0, rfl⟩
  | succ n ih =>
    intro i
    by_cases h : rc i = 0
    · obtain ⟨m, hm, hsh⟩ := ih (i + 1)
      refine ⟨m + 1, by omega, ?_⟩
      rw [show List.range' i (m + 1) = i :: List.range' (i + 1) m by
        simpa using List.range'_succ i m 1]
      simp [seqRunAux, h, hsh]
    · exact ⟨1, by omega, by simp [seqRunAux, h, List.range']⟩

/-- C3: when the concurrency bound is at most 1, `run_command` takes the
sequential branch: jobs are launched one at a time in batch order (the set
of launched indices is a contiguous in-order segment from 0), and once job
`i` exits non-zero no job after `i` is ever launched. -/
theorem sequential_abort (rc : Nat → Int) (multiprocessing : Int)
    (lines : List (List Char)) (hN : multiprocessing ≤ 1) :
    (∃ m, run_command_launches rc multiprocessing lines = List.range' 0 m) ∧
    ∀ i j, rc i ≠ 0 → i < j →
      j ∉ run_command_launches rc multiprocessing lines := by
  have hdm : do_multiprocess multiprocessing = false := by
    simp only [do_multiprocess, decide_eq_false_iff_not]
    omega
  rw [run_command_launches, hdm]
  simp only [Bool.false_eq_true, if_false]
  refine ⟨?_, ?_⟩
  · obtain ⟨m, _, hsh⟩ := seqRunAux_shape rc (parseCmdLines lines).length 0
    exact ⟨m, hsh⟩
  · intro i j hi hij hmem
    obtain ⟨_, hall⟩ := seqRunAux_mem rc _ 0 j hmem
    exact hi (hall i (Nat.zero_le i) hij)

theorem sequential_abort_witness :
    ((1 : Int) ≤ 1) ∧
      2 ∉ run_command_launches (fun i => if i = 0 then 2 else 0) 1
        ["c0".data, "c1".data, "c2".data] :=
  ⟨by decide,
    (sequential_abort (fun i => if i = 0 then 2 else 0) 1
      ["c0".data, "c1".data, "c2".data] (by decide)).2 0 2 (by decide)
      (by decide)⟩

/-- C7 counterexample: command synthesis does touch the filesystem.  On a
source directory with one processable file and an output directory whose
subdirectory does not yet exist, `generate_commands` creates that directory
(`os.mkdir`, generate_commands.py lines 42–43), so the filesystem after
synthesis differs from the one before. -/
theorem generate_commands_touches_filesystem :
    (generate_commands "s".data none [("s".data, ["a.txt".data])] "o".data
        "r.tsv".data [] [] [".txt".data] false ⟨[], []⟩).1 ≠
      (⟨[], []⟩ : FS) := by
  decide

theorem foldl_preserve {α β : Type _} {P : β → Prop} (f : β → α → β)
    (l : List α) (hf : ∀ b, ∀ a ∈ l, P b → P (f b a)) :
    ∀ b, P b → P (l.foldl f b) := by
  induction l with
  | nil => exact fun b hb => hb
  | cons a rest ih =>
    intro b hb
    exact ih (fun b' a' ha' hb' => hf b' a' (List.mem_cons_of_mem _ ha') hb')
      _ (hf b a (List.mem_cons_self _ _) hb)

theorem processFile_fs {replacement_file : List Char}
    {replacement_dict : List (List Char × List Char)}
    {ignore_ext include_only_ext : List (List Char)} {use_symlink : Bool}
    {source_filelist : Option (List (List Char))} {root new_outdir : List Char}
    (acc : FS × List (List Char)) (filename : List Char) :
    (processFile replacement_file replacement_dict ignore_ext
          include_only_ext use_symlink source_filelist root new_outdir acc
          filename).1.files = acc.1.files ∧
      ((processFile replacement_file replacement_dict ignore_ext
          include_only_ext use_symlink source_filelist root new_outdir acc
          filename).1.dirs = acc.1.dirs ∨
        (processFile replacement_file replacement_dict ignore_ext
          include_only_ext use_symlink source_filelist root new_outdir acc
          filename).1.dirs = new_outdir :: acc.1.dirs) := by
  simp only [processFile.eq_def]
  split
  · exact ⟨rfl, Or.inl rfl⟩
  · by_cases hd : new_outdir ∈ acc.1.dirs
    · simp [hd]
    · simp [hd]

/-- C7 amended: command synthesis is not filesystem-pure — it creates the
missing output directories for the files it processes.  That is its only
effect: regular files are never created or modified, the set of existing
directories only grows, every directory it creates lies under the output
directory, and the per-file command builders (`textfile_cmd`, `bam_cmd`)
raise only via delimiter-selector failure. -/
theorem synthesis_fs_effects (sourcedir : List Char)
    (source_filelist : Option (List (List Char)))
    (walk : List (List Char × List (List Char)))
    (outdir replacement_file : List Char)
    (replacement_dict : List (List Char × List Char))
    (ignore_ext include_only_ext : List (List Char)) (use_symlink : Bool)
    (fs : FS) :
    ((generate_commands sourcedir source_filelist walk outdir
        replacement_file replacement_dict ignore_ext include_only_ext
        use_symlink fs).1.files = fs.files) ∧
    (∀ p ∈ fs.dirs,
      p ∈ (generate_commands sourcedir source_filelist walk outdir
        replacement_file replacement_dict ignore_ext include_only_ext
        use_symlink fs).1.dirs) ∧
    (∀ p ∈ (generate_commands sourcedir source_filelist walk outdir
        replacement_file replacement_dict ignore_ext include_only_ext
        use_symlink fs).1.dirs,
      p ∈ fs.dirs ∨ outdir ++ ['/'] <+: p) ∧
    (∀ (i o : List Char) (rd : List (List Char × List Char)) (g : Bool),
      (textfile_cmd i o rd g).isOk = false ↔ get_sed_separator rd = none) ∧
    (∀ (i o : List Char) (rd : List (List Char × List Char)) (nt : Nat)
        (rp : Bool),
      (bam_cmd i o rd nt rp).isOk = false ↔ get_sed_separator rd = none) := by
  set P : FS × List (List Char) → Prop := fun acc =>
    acc.1.files = fs.files ∧
    (∀ p ∈ fs.dirs, p ∈ acc.1.dirs) ∧
    (∀ p ∈ acc.1.dirs, p ∈ fs.dirs ∨ outdir ++ ['/'] <+: p) with hP
  have hgen : P (generate_commands sourcedir source_filelist walk outdir
      replacement_file replacement_dict ignore_ext include_only_ext
      use_symlink fs) := by
    rw [generate_commands]
    refine foldl_preserve _ walk ?_ (fs, []) ⟨rfl, fun p hp => hp,
      fun p hp => Or.inl hp⟩
    intro acc entry _ hacc
    refine foldl_preserve _ entry.2 ?_ acc hacc
    intro b fn _ hb
    obtain ⟨hfiles, hdirs⟩ := processFile_fs b fn
    refine ⟨hfiles.trans hb.1, ?_, ?_⟩
    · intro p hp
      rcases hdirs with h | h <;> rw [h]
      · exact hb.2.1 p hp
      · exact List.mem_cons_of_mem _ (hb.2.1 p hp)
    · intro p hp
      rcases hdirs with h | h <;> rw [h] at hp
      · exact hb.2.2 p hp
      · rcases List.mem_cons.mp hp with rfl | hp
        · exact Or.inr
            ⟨replace_string (os_path_relpath entry.1 sourcedir)
              replacement_dict, by simp [os_path_join]⟩
        · exact hb.2.2 p hp
  have hsed : ∀ (rd : List (List Char × List Char)),
      (get_sed_cmd_string rd).isOk = false ↔ get_sed_separator rd = none := by
    intro rd
    rw [get_sed_cmd_string]
    rcases h : get_sed_separator rd with _ | c <;>
      simp [Except.isOk, Except.toBool]
  refine ⟨hgen.1, hgen.2.1, hgen.2.2, ?_, ?_⟩
  · intro i o rd g
    rw [← hsed rd, textfile_cmd]
    rcases get_sed_cmd_string rd with e | v <;>
      simp [Except.isOk, Except.toBool, Except.map]
  · intro i o rd nt rp
    rw [← hsed rd, bam_cmd]
    rcases get_sed_cmd_string rd with e | v <;>
      simp [Except.isOk, Except.toBool, Except.map]

theorem synthesis_fs_effects_witness :
    (generate_commands "s".data none [("s".data, ["a.txt".data])] "o".data
        "r.tsv".data [] [] [".txt".data] false ⟨[], ["x".data]⟩).1.files =
      (⟨[], ["x".data]⟩ : FS).files :=
  (synthesis_fs_effects "s".data none [("s".data, ["a.txt".data])] "o".data
    "r.tsv".data [] [] [".txt".data] false ⟨[], ["x".data]⟩).1

/-! ### Polling lemmas -/

@[simp] theorem isRunningB_waiting : JState.waiting.isRunningB = false := rfl

@[simp] theorem isRunningB_running (r : Nat) :
    (JState.running r).isRunningB = true := rfl

@[simp] theorem isRunningB_complete (c : Int) :
    (JState.complete c).isRunningB = false := rfl

@[simp] theorem isCompleteB_waiting : JState.waiting.isCompleteB = false := rfl

@[simp] theorem isCompleteB_running (r : Nat) :
    (JState.running r).isCompleteB = false := rfl

@[simp] theorem isCompleteB_complete (c : Int) :
    (JState.complete c).isCompleteB = true := rfl

theorem pollStates_length (code : Nat → Int) :
    ∀ (i : Nat) (l : List JState), (pollStates code i l).1.length = l.length := by
  intro i l
  induction l generalizing i with
  | nil => rfl
  | cons st rest ih =>
    rcases st with _ | r | c
    · simpa [pollStates] using ih (i + 1)
    · rcases r with _ | r <;> simpa [pollStates] using ih (i + 1)
    · simpa [pollStates] using ih (i + 1)

theorem pollStates_getElem? (code : Nat → Int) :
    ∀ (i : Nat) (l : List JState) (j : Nat),
      (pollStates code i l).1[j]? = (l[j]?).map (pollJob code (i + j)) := by
  intro i l
  induction l generalizing i with
  | nil => intro j; simp [pollStates]
  | cons st rest ih =>
    intro j
    have step : (pollStates code i (st :: rest)).1 =
        pollJob code i st :: (pollStates code (i + 1) rest).1 := by
      rcases st with _ | r | c
      · simp [pollStates, pollJob]
      · rcases r with _ | r <;> simp [pollStates, pollJob]
      · simp [pollStates, pollJob]
    rcases j with _ | j
    · simp [step]
    · have : i + (j + 1) = (i + 1) + j := by omega
      simp [step, ih (i + 1) j, this]

theorem pollStates_countP_le (code : Nat → Int) :
    ∀ (i : Nat) (l : List JState),
      (pollStates code i l).1.countP JState.isRunningB ≤
        l.countP JState.isRunningB := by
  intro i l
  induction l generalizing i with
  | nil => simp [pollStates]
  | cons st rest ih =>
    have h := ih (i + 1)
    rcases st with _ | r | c
    · simp [pollStates, List.countP_cons]
      omega
    · rcases r with _ | r <;> simp [pollStates, List.countP_cons] <;> omega
    · simp [pollStates, List.countP_cons]
      omega

theorem measureFrom_pollStates (dur : Nat → Nat) (code : Nat → Int) :
    ∀ (i : Nat) (l : List JState),
      measureFrom dur i (pollStates code i l).1 ≤ measureFrom dur i l ∧
        (0 < l.countP JState.isRunningB →
          measureFrom dur i (pollStates code i l).1 < measureFrom dur i l) := by
  intro i l
  induction l generalizing i with
  | nil => simp [pollStates, measureFrom]
  | cons st rest ih =>
    obtain ⟨hle, hlt⟩ := ih (i + 1)
    rcases st with _ | r | c
    · have hstep : (pollStates code i (JState.waiting :: rest)).1 =
          JState.waiting :: (pollStates code (i + 1) rest).1 := by
        simp [pollStates]
      constructor
      · simp only [hstep, measureFrom]
        omega
      · intro h
        have h' : 0 < rest.countP JState.isRunningB := by
          simpa [List.countP_cons] using h
        have := hlt h'
        simp only [hstep, measureFrom]
        omega
    · rcases r with _ | r
      · have hstep : (pollStates code i (JState.running 0 :: rest)).1 =
            JState.complete (code i) :: (pollStates code (i + 1) rest).1 := by
          simp [pollStates]
        constructor
        · simp only [hstep, measureFrom, jmeasure]
          omega
        · intro h
          simp only [hstep, measureFrom, jmeasure]
          omega
      · have hstep : (pollStates code i (JState.running (r + 1) :: rest)).1 =
            JState.running r :: (pollStates code (i + 1) rest).1 := by
          simp [pollStates]
        constructor
        · simp only [hstep, measureFrom, jmeasure]
          omega
        · intro h
          simp only [hstep, measureFrom, jmeasure]
          omega
    · have hstep : (pollStates code i (JState.complete c :: rest)).1 =
          JState.complete c :: (pollStates code (i + 1) rest).1 := by
        simp [pollStates]
      constructor
      · simp only [hstep, measureFrom]
        omega
      · intro h
        have h' : 0 < rest.countP JState.isRunningB := by
          simpa [List.countP_cons] using h
        have := hlt h'
        simp only [hstep, measureFrom]
        omega

theorem pollStates_warns_mem (code : Nat → Int) :
    ∀ (i : Nat) (l : List JState) (j : Nat), j ∈ (pollStates code i l).2 →
      code j ≠ 0 ∧ ∃ d, d < l.length ∧ j = i + d ∧
        l[d]? = some (JState.running 0) := by
  intro i l
  induction l generalizing i with
  | nil => intro j hj; simp [pollStates] at hj
  | cons st rest ih =>
    intro j hj
    have tail : j ∈ (pollStates code (i + 1) rest).2 →
        code j ≠ 0 ∧ ∃ d, d < (st :: rest).length ∧ j = i + d ∧
          (st :: rest)[d]? = some (JState.running 0) := by
      intro hm
      obtain ⟨hc, d, hd, rfl, hget⟩ := ih (i + 1) j hm
      exact ⟨hc, d + 1, by simpa using hd, by omega, by simpa using hget⟩
    rcases st with _ | r | c
    · exact tail (by simpa [pollStates] using hj)
    · rcases r with _ | r
      · by_cases hc : code i = 0
        · exact tail (by simpa [pollStates, hc] using hj)
        · simp only [pollStates, hc, if_false] at hj
          rcases List.mem_cons.mp hj with rfl | hj
          · exact ⟨hc, 0, by simp, by simp⟩
          · exact tail hj
      · exact tail (by simpa [pollStates] using hj)
    · exact tail (by simpa [pollStates] using hj)

theorem pollStates_warns_of (code : Nat → Int) :
    ∀ (i : Nat) (l : List JState) (d : Nat),
      l[d]? = some (JState.running 0) → code (i + d) ≠ 0 →
        (i + d) ∈ (pollStates code i l).2 := by
  intro i l
  induction l generalizing i with
  | nil => intro d hd; simp at hd
  | cons st rest ih =>
    intro d hd hc
    rcases d with _ | d
    · simp only [List.getElem?_cons_zero, Option.some_inj] at hd
      subst hd
      have hc' : ¬ code i = 0 := by simpa using hc
      simp [pollStates, hc']
    · have hd' : rest[d]? = some (JState.running 0) := by simpa using hd
      have := ih (i + 1) d hd' (by
        have : i + 1 + d = i + (d + 1) := by omega
        rw [this]; exact hc)
      have heq : i + 1 + d = i + (d + 1) := by omega
      rw [heq] at this
      rcases st with _ | r | c
      · simpa [pollStates]
      · rcases r with _ | r
        · by_cases h0 : code i = 0 <;> simp [pollStates, h0, this]
        · simpa [pollStates]
      · simpa [pollStates]

theorem measureFrom_eq_zero (dur : Nat → Nat) :
    ∀ (i : Nat) (l : List JState), measureFrom dur i l = 0 →
      l.all JState.isCompleteB = true := by
  intro i l
  induction l generalizing i with
  | nil => intro _; rfl
  | cons st rest ih =>
    intro h
    simp only [measureFrom] at h
    rcases st with _ | r | c
    · simp [jmeasure] at h
    · simp [jmeasure] at h
    · simp only [List.all_cons, JState.isCompleteB, Bool.true_and]
      exact ih (i + 1) (by omega)

/-! ### List.set counting and measure lemmas -/

theorem countP_set_le_succ (p : JState → Bool) :
    ∀ (l : List JState) (j : Nat) (a : JState),
      (l.set j a).countP p ≤ l.countP p + 1 := by
  intro l
  induction l with
  | nil => intro j a; simp
  | cons st rest ih =>
    intro j a
    rcases j with _ | j
    · simp only [List.set_cons_zero, List.countP_cons]
      by_cases hp : p a <;> by_cases hq : p st <;> simp [hp, hq] <;> omega
    · simp only [List.set_cons_succ, List.countP_cons]
      have := ih j a
      omega

theorem countP_set_of_flip (p : JState → Bool) :
    ∀ (l : List JState) (j : Nat) (a b : JState), l[j]? = some b →
      p b = false → p a = true →
      (l.set j a).countP p = l.countP p + 1 := by
  intro l
  induction l with
  | nil => intro j a b h; simp at h
  | cons st rest ih =>
    intro j a b hj hb ha
    rcases j with _ | j
    · simp only [List.getElem?_cons_zero, Option.some_inj] at hj
      subst hj
      simp [List.countP_cons, hb, ha]
    · simp only [List.getElem?_cons_succ] at hj
      simp only [List.set_cons_succ, List.countP_cons, ih j a b hj hb ha]
      omega

theorem measureFrom_set_waiting (dur : Nat → Nat) :
    ∀ (l : List JState) (i j : Nat), l[j]? = some JState.waiting →
      measureFrom dur i (l.set j (JState.running (dur (i + j)))) + 1 =
        measureFrom dur i l := by
  intro l
  induction l with
  | nil => intro i j h; simp at h
  | cons st rest ih =>
    intro i j hj
    rcases j with _ | j
    · simp only [List.getElem?_cons_zero, Option.some_inj] at hj
      subst hj
      simp only [List.set_cons_zero, measureFrom, jmeasure, Nat.add_zero]
      omega
    · simp only [List.getElem?_cons_succ] at hj
      have := ih (i + 1) j hj
      simp only [List.set_cons_succ, measureFrom]
      have heq : i + 1 + j = i + (j + 1) := by omega
      rw [heq] at this
      omega

/-! ### Admission lemmas -/

theorem getElem?_set_or {α : Type _} (l : List α) (j' j : Nat) (a : α) :
    (l.set j' a)[j]? = l[j]? ∨ (l.set j' a)[j]? = some a := by
  by_cases hj : j' = j
  · subst hj
    by_cases hlt : j' < l.length
    · exact Or.inr (List.getElem?_set_eq_of_lt a hlt)
    · refine Or.inl ?_
      rw [List.getElem?_eq_none (by simpa using hlt),
        List.getElem?_eq_none (by omega)]
  · exact Or.inl (List.getElem?_set_ne hj)

theorem popLast_reverse_cons (x : Nat) (xs : List Nat) :
    popLast ((x :: xs).reverse) = some (x, xs.reverse) := by
  rw [popLast, List.getLast?_reverse]
  simp only [List.head?_cons]
  rw [List.reverse_cons, List.dropLast_concat]

theorem popLast_range'_reverse (k n : Nat) (h : k < n) :
    popLast ((List.range' k (n - k)).reverse) =
      some (k, (List.range' (k + 1) (n - (k + 1))).reverse) := by
  have hnk : n - k = (n - (k + 1)) + 1 := by omega
  rw [hnk, show List.range' k ((n - (k + 1)) + 1) =
      k :: List.range' (k + 1) (n - (k + 1)) by
    simpa using List.range'_succ k (n - (k + 1)) 1]
  exact popLast_reverse_cons _ _

theorem SchedInv_waiting_lt {n : Nat} {s : SchedState} (hinv : SchedInv n s)
    (hw : JState.waiting ∈ s.job_states) :
    ∃ k, k < n ∧
      s.remaining_job_index = (List.range' k (n - k)).reverse ∧
      ∀ i, i < n → (s.job_states[i]? = some JState.waiting ↔ k ≤ i) := by
  obtain ⟨hlen, k, hk, hrem, hiff⟩ := hinv
  obtain ⟨i, hi⟩ := getElem?_of_mem hw
  have hilt : i < n := by
    have := (List.getElem?_eq_some.mp hi).1
    omega
  have hki : k ≤ i := (hiff i hilt).mp hi
  exact ⟨k, by omega, hrem, hiff⟩

theorem SchedInv_launch (dur : Nat → Nat) {n : Nat} {s : SchedState}
    (hinv : SchedInv n s) (hw : JState.waiting ∈ s.job_states) :
    ∃ j rest, popLast s.remaining_job_index = some (j, rest) ∧
      s.job_states[j]? = some JState.waiting ∧
      SchedInv n (launch dur s j rest) := by
  obtain ⟨k, hkn, hrem, hiff⟩ := SchedInv_waiting_lt hinv hw
  have hlen := hinv.1
  refine ⟨k, (List.range' (k + 1) (n - (k + 1))).reverse, ?_, ?_, ?_⟩
  · rw [hrem]
    exact popLast_range'_reverse k n hkn
  · exact (hiff k hkn).mpr (le_refl k)
  · refine ⟨by simpa [launch] using hlen, k + 1, by omega, rfl, ?_⟩
    intro i hi
    by_cases hik : i = k
    · subst hik
      have : (s.job_states.set i (JState.running (dur i)))[i]? =
          some (JState.running (dur i)) :=
        List.getElem?_set_eq_of_lt _ (by omega)
      simp only [launch, this]
      constructor
      · intro h
        exact absurd h (by simp)
      · omega
    · have : (s.job_states.set k (JState.running (dur k)))[i]? =
          s.job_states[i]? := List.getElem?_set_ne (fun h => hik h.symm)
      simp only [launch, this]
      rw [hiff i hi]
      omega

theorem launch_runningCount (dur : Nat → Nat) {s : SchedState} {j : Nat}
    (rest : List Nat) (hj : s.job_states[j]? = some JState.waiting) :
    runningCount (launch dur s j rest) = runningCount s + 1 :=
  countP_set_of_flip _ _ _ _ _ hj rfl rfl

theorem launch_measure (dur : Nat → Nat) {s : SchedState} {j : Nat}
    (rest : List Nat) (hj : s.job_states[j]? = some JState.waiting) :
    schedMeasure dur (launch dur s j rest) + 1 = schedMeasure dur s := by
  have := measureFrom_set_waiting dur s.job_states 0 j hj
  rw [Nat.zero_add] at this
  exact this

theorem admitLoopAux_master (dur : Nat → Nat) (N n : Nat) :
    ∀ (fuel : Nat) (s : SchedState), SchedInv n s →
      SchedInv n (admitLoopAux dur N fuel s).1 ∧
      (∀ s' ∈ (admitLoopAux dur N fuel s).2, SchedInv n s') ∧
      schedMeasure dur (admitLoopAux dur N fuel s).1 ≤ schedMeasure dur s ∧
      runningCount s ≤ runningCount (admitLoopAux dur N fuel s).1 := by
  intro fuel
  induction fuel with
  | zero =>
    intro s hinv
    exact ⟨hinv, by simp [admitLoopAux], le_refl _, le_refl _⟩
  | succ fuel ih =>
    intro s hinv
    by_cases hg : runningCount s < N ∧ JState.waiting ∈ s.job_states
    · obtain ⟨j, rest, hpop, hjw, hinv'⟩ := SchedInv_launch dur hinv hg.2
      have hrc := launch_runningCount dur rest hjw
      have hms := launch_measure dur rest hjw
      obtain ⟨ih1, ih2, ih3, ih4⟩ := ih (launch dur s j rest) hinv'
      simp only [admitLoopAux, if_pos hg, hpop]
      refine ⟨ih1, ?_, by omega, by omega⟩
      intro s' hs'
      rcases List.mem_cons.mp hs' with rfl | hs'
      · exact hinv'
      · exact ih2 s' hs'
    · simp only [admitLoopAux, if_neg hg]
      exact ⟨hinv, by simp, le_refl _, le_refl _⟩

theorem admitLoopAux_rc_le (dur : Nat → Nat) (N : Nat) :
    ∀ (fuel : Nat) (s : SchedState), runningCount s ≤ N →
      runningCount (admitLoopAux dur N fuel s).1 ≤ N ∧
      ∀ s' ∈ (admitLoopAux dur N fuel s).2, runningCount s' ≤ N := by
  intro fuel
  induction fuel with
  | zero =>
    intro s hs
    exact ⟨hs, by simp [admitLoopAux]⟩
  | succ fuel ih =>
    intro s hs
    by_cases hg : runningCount s < N ∧ JState.waiting ∈ s.job_states
    · rcases hpop : popLast s.remaining_job_index with _ | ⟨j, rest⟩
      · simp only [admitLoopAux, if_pos hg, hpop]
        exact ⟨hs, by simp⟩
      · have hrc' : runningCount (launch dur s j rest) ≤ N := by
          have := countP_set_le_succ JState.isRunningB s.job_states j
            (JState.running (dur j))
          simp only [launch, runningCount] at *
          omega
        obtain ⟨ih1, ih2⟩ := ih (launch dur s j rest) hrc'
        simp only [admitLoopAux, if_pos hg, hpop]
        refine ⟨ih1, ?_⟩
        intro s' hs'
        rcases List.mem_cons.mp hs' with rfl | hs'
        · exact hrc'
        · exact ih2 s' hs'
    · simp only [admitLoopAux, if_neg hg]
      exact ⟨hs, by simp⟩

theorem admitLoopAux_length (dur : Nat → Nat) (N : Nat) :
    ∀ (fuel : Nat) (s : SchedState),
      (admitLoopAux dur N fuel s).1.job_states.length =
        s.job_states.length := by
  intro fuel
  induction fuel with
  | zero => intro s; rfl
  | succ fuel ih =>
    intro s
    by_cases hg : runningCount s < N ∧ JState.waiting ∈ s.job_states
    · rcases hpop : popLast s.remaining_job_index with _ | ⟨j, rest⟩
      · simp [admitLoopAux, if_pos hg, hpop]
      · simp only [admitLoopAux, if_pos hg, hpop]
        rw [ih (launch dur s j rest)]
        simp [launch]
    · simp [admitLoopAux, if_neg hg]

theorem admitLoopAux_getElem (dur : Nat → Nat) (N : Nat) (j : Nat) :
    ∀ (fuel : Nat) (s : SchedState),
      (admitLoopAux dur N fuel s).1.job_states[j]? = s.job_states[j]? ∨
      (admitLoopAux dur N fuel s).1.job_states[j]? =
        some (JState.running (dur j)) := by
  intro fuel
  induction fuel with
  | zero => intro s; exact Or.inl rfl
  | succ fuel ih =>
    intro s
    by_cases hg : runningCount s < N ∧ JState.waiting ∈ s.job_states
    · rcases hpop : popLast s.remaining_job_index with _ | ⟨j', rest⟩
      · simp [admitLoopAux, if_pos hg, hpop]
      · simp only [admitLoopAux, if_pos hg, hpop]
        rcases ih (launch dur s j' rest) with h | h
        · simp only [launch] at h
          by_cases hj : j' = j
          · subst hj
            rcases getElem?_set_or s.job_states j' j'
                (JState.running (dur j')) with h2 | h2
            · exact Or.inl (h.trans h2)
            · exact Or.inr (h.trans h2)
          · exact Or.inl (h.trans (List.getElem?_set_ne hj))
        · exact Or.inr h
    · simp [admitLoopAux, if_neg hg]

theorem admitLoop_strict (dur : Nat → Nat) {N n : Nat} {s : SchedState}
    (hinv : SchedInv n s) (hrc : runningCount s < N)
    (hw : JState.waiting ∈ s.job_states) :
    schedMeasure dur (admitLoop dur N s).1 < schedMeasure dur s := by
  obtain ⟨k, hkn, hrem, _⟩ := SchedInv_waiting_lt hinv hw
  have hflen : s.remaining_job_index.length = n - k := by
    rw [hrem]; simp
  obtain ⟨j, rest, hpop, hjw, hinv'⟩ := SchedInv_launch dur hinv hw
  have hms := launch_measure dur rest hjw
  obtain ⟨f, hf⟩ : ∃ f, s.remaining_job_index.length = f + 1 :=
    ⟨n - k - 1, by omega⟩
  have hg : runningCount s < N ∧ JState.waiting ∈ s.job_states := ⟨hrc, hw⟩
  have hstep : (admitLoop dur N s).1 =
      (admitLoopAux dur N f (launch dur s j rest)).1 := by
    rw [admitLoop, hf]
    simp [admitLoopAux, if_pos hg, hpop]
  have hmaster :=
    (admitLoopAux_master dur N n f (launch dur s j rest) hinv').2.2.1
  rw [hstep]
  omega

/-! ### Step lemmas -/

theorem pollJob_waiting_iff (code : Nat → Int) (i : Nat) (st : JState) :
    pollJob code i st = JState.waiting ↔ st = JState.waiting := by
  rcases st with _ | r | c
  · simp [pollJob]
  · rcases r with _ | r <;> simp [pollJob]
  · simp [pollJob]

theorem pollCycle_inv (code : Nat → Int) {n : Nat} {s : SchedState}
    (hinv : SchedInv n s) : SchedInv n (pollCycle code s).1 := by
  obtain ⟨hlen, k, hk, hrem, hiff⟩ := hinv
  refine ⟨by simpa [pollCycle, pollStates_length] using hlen, k, hk, hrem, ?_⟩
  intro i hi
  have hget : (pollCycle code s).1.job_states[i]? =
      (s.job_states[i]?).map (pollJob code i) := by
    have := pollStates_getElem? code 0 s.job_states i
    simpa [pollCycle, Nat.zero_add] using this
  rw [hget, ← hiff i hi]
  constructor
  · intro h
    obtain ⟨a, ha, hpa⟩ := Option.map_eq_some'.mp h
    rw [ha, Option.some_inj]
    exact (pollJob_waiting_iff code i a).mp hpa
  · intro h
    rw [h]
    rfl

theorem pollCycle_rc_le (code : Nat → Int) (s : SchedState) :
    runningCount (pollCycle code s).1 ≤ runningCount s :=
  pollStates_countP_le code 0 s.job_states

theorem pollCycle_measure (dur : Nat → Nat) (code : Nat → Int)
    (s : SchedState) :
    schedMeasure dur (pollCycle code s).1 ≤ schedMeasure dur s ∧
      (0 < runningCount s →
        schedMeasure dur (pollCycle code s).1 < schedMeasure dur s) :=
  measureFrom_pollStates dur code 0 s.job_states

theorem schedStep_fst_getElem (dur : Nat → Nat) (code : Nat → Int) (N : Nat)
    (s : SchedState) (j : Nat) :
    (schedStep dur code N s).1.job_states[j]? =
      ((admitLoop dur N s).1.job_states[j]?).map (pollJob code j) := by
  have := pollStates_getElem? code 0 (admitLoop dur N s).1.job_states j
  simpa [schedStep, pollCycle, Nat.zero_add] using this

theorem schedStep_warns (dur : Nat → Nat) (code : Nat → Int) (N : Nat)
    (s : SchedState) :
    (schedStep dur code N s).2.2 =
      (pollStates code 0 (admitLoop dur N s).1.job_states).2 :=
  rfl

theorem schedStep_inv (dur : Nat → Nat) (code : Nat → Int) {N n : Nat}
    {s : SchedState} (hinv : SchedInv n s) :
    SchedInv n (schedStep dur code N s).1 ∧
      ∀ s' ∈ (schedStep dur code N s).2.1, SchedInv n s' := by
  obtain ⟨h1, h2, _, _⟩ :=
    admitLoopAux_master dur N n s.remaining_job_index.length s hinv
  refine ⟨pollCycle_inv code h1, ?_⟩
  intro s' hs'
  rcases List.mem_append.mp hs' with h | h
  · exact h2 s' h
  · rw [List.mem_singleton.mp h]
    exact pollCycle_inv code h1

theorem schedStep_rc (dur : Nat → Nat) (code : Nat → Int) (N : Nat)
    (s : SchedState) (hs : runningCount s ≤ N) :
    runningCount (schedStep dur code N s).1 ≤ N ∧
      ∀ s' ∈ (schedStep dur code N s).2.1, runningCount s' ≤ N := by
  obtain ⟨h1, h2⟩ :=
    admitLoopAux_rc_le dur N s.remaining_job_index.length s hs
  have hpoll := pollCycle_rc_le code (admitLoop dur N s).1
  refine ⟨le_trans hpoll h1, ?_⟩
  intro s' hs'
  rcases List.mem_append.mp hs' with h | h
  · exact h2 s' h
  · rw [List.mem_singleton.mp h]
    exact le_trans hpoll h1

theorem schedStep_length (dur : Nat → Nat) (code : Nat → Int) (N : Nat)
    (s : SchedState) :
    (schedStep dur code N s).1.job_states.length = s.job_states.length := by
  have h1 := admitLoopAux_length dur N s.remaining_job_index.length s
  have h2 := pollStates_length code 0 (admitLoop dur N s).1.job_states
  simpa [schedStep, pollCycle, admitLoop] using h2.trans h1

theorem schedStep_strict (dur : Nat → Nat) (code : Nat → Int) {N n : Nat}
    {s : SchedState} (hN : 1 ≤ N) (hinv : SchedInv n s)
    (hnc : allCompleteB s = false) :
    schedMeasure dur (schedStep dur code N s).1 < schedMeasure dur s := by
  by_cases hrc : 0 < runningCount s
  · obtain ⟨_, _, hm, hge⟩ :=
      admitLoopAux_master dur N n s.remaining_job_index.length s hinv
    have hm' : schedMeasure dur (admitLoop dur N s).1 ≤ schedMeasure dur s :=
      hm
    have hge' : runningCount s ≤ runningCount (admitLoop dur N s).1 := hge
    have hpoll := (pollCycle_measure dur code (admitLoop dur N s).1).2
      (lt_of_lt_of_le hrc hge')
    exact lt_of_lt_of_le hpoll hm'
  · have hrc' : runningCount s = 0 := by omega
    have hnall : ¬ (s.job_states.all JState.isCompleteB = true) := by
      rw [allCompleteB] at hnc
      rw [hnc]
      simp
    rw [List.all_eq_true] at hnall
    push_neg at hnall
    obtain ⟨st, hmem, hst⟩ := hnall
    have hnr : ∀ a ∈ s.job_states, ¬ (JState.isRunningB a = true) :=
      List.countP_eq_zero.mp (by simpa [runningCount] using hrc')
    have hw : JState.waiting ∈ s.job_states := by
      rcases st with _ | r | c
      · exact hmem
      · exact absurd rfl (hnr _ hmem)
      · exact absurd rfl hst
    have hadmit := @admitLoop_strict dur N n s hinv (by omega) hw
    have hpoll := (pollCycle_measure dur code (admitLoop dur N s).1).1
    exact lt_of_le_of_lt hpoll hadmit

theorem SchedInv_initState (n : Nat) : SchedInv n (initState n) := by
  refine ⟨by simp [initState], 0, Nat.zero_le n, ?_, ?_⟩
  · simp [initState, List.range_eq_range']
  · intro i hi
    simp [initState, List.getElem?_replicate, hi]

/-! ### Run lemmas -/

theorem runSched_zero (dur : Nat → Nat) (code : Nat → Int) (N : Nat)
    (s : SchedState) : runSched dur code N 0 s = (s, [s], []) :=
  rfl

theorem runSched_succ_pos (dur : Nat → Nat) (code : Nat → Int) (N fuel : Nat)
    (s : SchedState) (h : allCompleteB s = true) :
    runSched dur code N (fuel + 1) s = (s, [s], []) := by
  simp [runSched, h]

theorem runSched_succ_neg (dur : Nat → Nat) (code : Nat → Int) (N fuel : Nat)
    (s : SchedState) (h : allCompleteB s = false) :
    runSched dur code N (fuel + 1) s =
      ((runSched dur code N fuel (schedStep dur code N s).1).1,
        s :: (schedStep dur code N s).2.1 ++
          (runSched dur code N fuel (schedStep dur code N s).1).2.1,
        (schedStep dur code N s).2.2 ++
          (runSched dur code N fuel (schedStep dur code N s).1).2.2) := by
  simp [runSched, h]

theorem runSched_trace_rc (dur : Nat → Nat) (code : Nat → Int) (N : Nat) :
    ∀ (fuel : Nat) (s : SchedState), runningCount s ≤ N →
      ∀ s' ∈ (runSched dur code N fuel s).2.1, runningCount s' ≤ N := by
  intro fuel
  induction fuel with
  | zero =>
    intro s hs s' hs'
    rw [runSched_zero] at hs'
    rw [List.mem_singleton.mp hs']
    exact hs
  | succ fuel ih =>
    intro s hs s' hs'
    rcases hac : allCompleteB s with _ | _
    · rw [runSched_succ_neg dur code N fuel s hac] at hs'
      obtain ⟨hrc1, hrc2⟩ := schedStep_rc dur code N s hs
      rcases List.mem_cons.mp hs' with rfl | hs'
      · exact hs
      rcases List.mem_append.mp hs' with h | h
      · exact hrc2 s' h
      · exact ih (schedStep dur code N s).1 hrc1 s' h
    · rw [runSched_succ_pos dur code N fuel s hac] at hs'
      rw [List.mem_singleton.mp hs']
      exact hs

theorem runSched_trace_inv (dur : Nat → Nat) (code : Nat → Int) (N n : Nat) :
    ∀ (fuel : Nat) (s : SchedState), SchedInv n s →
      ∀ s' ∈ (runSched dur code N fuel s).2.1, SchedInv n s' := by
  intro fuel
  induction fuel with
  | zero =>
    intro s hs s' hs'
    rw [runSched_zero] at hs'
    rw [List.mem_singleton.mp hs']
    exact hs
  | succ fuel ih =>
    intro s hs s' hs'
    rcases hac : allCompleteB s with _ | _
    · rw [runSched_succ_neg dur code N fuel s hac] at hs'
      obtain ⟨hinv1, hinv2⟩ := schedStep_inv dur code hs
      rcases List.mem_cons.mp hs' with rfl | hs'
      · exact hs
      rcases List.mem_append.mp hs' with h | h
      · exact hinv2 s' h
      · exact ih (schedStep dur code N s).1 hinv1 s' h
    · rw [runSched_succ_pos dur code N fuel s hac] at hs'
      rw [List.mem_singleton.mp hs']
      exact hs

theorem schedStep_CInv (dur : Nat → Nat) (code : Nat → Int) (N : Nat)
    (s : SchedState)
    (h : ∀ j c, s.job_states[j]? = some (JState.complete c) → c = code j) :
    ∀ j c, (schedStep dur code N s).1.job_states[j]? =
      some (JState.complete c) → c = code j := by
  intro j c hc
  rw [schedStep_fst_getElem] at hc
  obtain ⟨a, ha, hpa⟩ := Option.map_eq_some'.mp hc
  have hadm : (admitLoop dur N s).1.job_states[j]? = s.job_states[j]? ∨
      (admitLoop dur N s).1.job_states[j]? =
        some (JState.running (dur j)) :=
    admitLoopAux_getElem dur N j s.remaining_job_index.length s
  rcases a with _ | r | c'
  · simp [pollJob] at hpa
  · rcases r with _ | r
    · simp only [pollJob, JState.complete.injEq] at hpa
      exact hpa.symm
    · simp [pollJob] at hpa
  · simp only [pollJob] at hpa
    rw [JState.complete.injEq] at hpa
    subst hpa
    rcases hadm with hadm | hadm
    · rw [ha] at hadm
      exact h j c' hadm.symm
    · rw [ha] at hadm
      simp at hadm

theorem runSched_CInv (dur : Nat → Nat) (code : Nat → Int) (N : Nat) :
    ∀ (fuel : Nat) (s : SchedState),
      (∀ j c, s.job_states[j]? = some (JState.complete c) → c = code j) →
      ∀ j c, (runSched dur code N fuel s).1.job_states[j]? =
        some (JState.complete c) → c = code j := by
  intro fuel
  induction fuel with
  | zero =>
    intro s hs
    rw [runSched_zero]
    exact hs
  | succ fuel ih =>
    intro s hs
    rcases hac : allCompleteB s with _ | _
    · rw [runSched_succ_neg dur code N fuel s hac]
      exact ih (schedStep dur code N s).1 (schedStep_CInv dur code N s hs)
    · rw [runSched_succ_pos dur code N fuel s hac]
      exact hs

theorem runSched_warns_sub (dur : Nat → Nat) (code : Nat → Int) (N : Nat) :
    ∀ (fuel : Nat) (s : SchedState) (j : Nat),
      j ∈ (runSched dur code N fuel s).2.2 →
      code j ≠ 0 ∧ j < s.job_states.length := by
  intro fuel
  induction fuel with
  | zero =>
    intro s j hj
    rw [runSched_zero] at hj
    simp at hj
  | succ fuel ih =>
    intro s j hj
    rcases hac : allCompleteB s with _ | _
    · rw [runSched_succ_neg dur code N fuel s hac] at hj
      rcases List.mem_append.mp hj with h | h
      · rw [schedStep_warns] at h
        obtain ⟨hc, d, hd, rfl, _⟩ := pollStates_warns_mem code 0 _ _ h
        have hlen : (admitLoop dur N s).1.job_states.length =
            s.job_states.length :=
          admitLoopAux_length dur N s.remaining_job_index.length s
        exact ⟨hc, by omega⟩
      · obtain ⟨hc, hlt⟩ := ih (schedStep dur code N s).1 j h
        rw [schedStep_length] at hlt
        exact ⟨hc, hlt⟩
    · rw [runSched_succ_pos dur code N fuel s hac] at hj
      simp at hj

theorem allComplete_getElem {s : SchedState} {j : Nat} {st : JState}
    (h : allCompleteB s = true) (hj : s.job_states[j]? = some st) :
    JState.isCompleteB st = true :=
  List.all_eq_true.mp h st (mem_of_getElem?_eq hj)

theorem runSched_warns_sup (dur : Nat → Nat) (code : Nat → Int) (N : Nat) :
    ∀ (fuel : Nat) (s : SchedState) (j : Nat),
      (s.job_states[j]? = some JState.waiting ∨
        ∃ r, s.job_states[j]? = some (JState.running r)) →
      code j ≠ 0 → allCompleteB (runSched dur code N fuel s).1 = true →
      j ∈ (runSched dur code N fuel s).2.2 := by
  intro fuel
  induction fuel with
  | zero =>
    intro s j hj hc hall
    rw [runSched_zero] at hall
    rcases hj with hj | ⟨r, hj⟩ <;>
      simpa using allComplete_getElem hall hj
  | succ fuel ih =>
    intro s j hj hc hall
    rcases hac : allCompleteB s with _ | _
    · rw [runSched_succ_neg dur code N fuel s hac] at hall ⊢
      have hadm : (admitLoop dur N s).1.job_states[j]? = s.job_states[j]? ∨
          (admitLoop dur N s).1.job_states[j]? =
            some (JState.running (dur j)) :=
        admitLoopAux_getElem dur N j s.remaining_job_index.length s
      have hs1 : (admitLoop dur N s).1.job_states[j]? =
            some JState.waiting ∨
          ∃ r, (admitLoop dur N s).1.job_states[j]? =
            some (JState.running r) := by
        rcases hadm with hadm | hadm
        · rw [hadm]
          exact hj
        · exact Or.inr ⟨dur j, hadm⟩
      have hstep : ∀ st, (admitLoop dur N s).1.job_states[j]? = some st →
          (schedStep dur code N s).1.job_states[j]? =
            some (pollJob code j st) := by
        intro st hst
        rw [schedStep_fst_getElem, hst]
        rfl
      rcases hs1 with hs1 | ⟨r, hs1⟩
      · have hnext := hstep _ hs1
        have := ih (schedStep dur code N s).1 j
          (Or.inl (by simpa [pollJob] using hnext)) hc hall
        exact List.mem_append.mpr (Or.inr this)
      · rcases r with _ | r
        · have hw := pollStates_warns_of code 0
            (admitLoop dur N s).1.job_states j hs1
            (by simpa using hc)
          rw [Nat.zero_add] at hw
          exact List.mem_append.mpr (Or.inl (by rw [schedStep_warns]; exact hw))
        · have hnext := hstep _ hs1
          have := ih (schedStep dur code N s).1 j
            (Or.inr ⟨r, by simpa [pollJob] using hnext⟩) hc hall
          exact List.mem_append.mpr (Or.inr this)
    · rw [runSched_succ_pos dur code N fuel s hac] at hall
      rcases hj with hj | ⟨r, hj⟩ <;>
        simpa using allComplete_getElem hall hj

theorem runSched_term (dur : Nat → Nat) (code : Nat → Int) {N n : Nat}
    (hN : 1 ≤ N) :
    ∀ (fuel : Nat) (s : SchedState), SchedInv n s →
      schedMeasure dur s ≤ fuel →
      allCompleteB (runSched dur code N fuel s).1 = true := by
  intro fuel
  induction fuel with
  | zero =>
    intro s hinv hm
    have := measureFrom_eq_zero dur 0 s.job_states (by
      simpa [schedMeasure] using hm)
    rw [runSched_zero]
    exact this
  | succ fuel ih =>
    intro s hinv hm
    rcases hac : allCompleteB s with _ | _
    · rw [runSched_succ_neg dur code N fuel s hac]
      refine ih (schedStep dur code N s).1 (schedStep_inv dur code hinv).1 ?_
      have := schedStep_strict dur code hN hinv hac
      omega
    · rw [runSched_succ_pos dur code N fuel s hac]
      exact hac

theorem runSched_length (dur : Nat → Nat) (code : Nat → Int) (N : Nat) :
    ∀ (fuel : Nat) (s : SchedState),
      (runSched dur code N fuel s).1.job_states.length =
        s.job_states.length := by
  intro fuel
  induction fuel with
  | zero => intro s; rw [runSched_zero]
  | succ fuel ih =>
    intro s
    rcases hac : allCompleteB s with _ | _
    · rw [runSched_succ_neg dur code N fuel s hac]
      rw [ih (schedStep dur code N s).1, schedStep_length]
    · rw [runSched_succ_pos dur code N fuel s hac]

theorem runningCount_initState (n : Nat) : runningCount (initState n) = 0 :=
  List.countP_eq_zero.mpr fun a ha => by
    rw [List.eq_of_mem_replicate ha]
    simp

theorem initState_getElem? (n j : Nat) (hj : j < n) :
    (initState n).job_states[j]? = some JState.waiting := by
  simp [initState, List.getElem?_replicate, hj]

/-- C1: at every observed instant of a `dumb_scheduler` run — after each
individual launch and after each poll sweep — the number of RUNNING jobs is
at most `max_process_num`, for every job list and every bound. -/
theorem scheduler_running_le_bound (dur : Nat → Nat) (code : Nat → Int)
    (n N fuel : Nat) :
    ∀ s' ∈ (dumb_scheduler dur code n N fuel).2.1, runningCount s' ≤ N :=
  runSched_trace_rc dur code N fuel (initState n)
    (by rw [runningCount_initState]; exact Nat.zero_le N)

theorem scheduler_running_le_bound_witness :
    initState 3 ∈ (dumb_scheduler (fun _ => 1) (fun _ => 0) 3 2 8).2.1 ∧
      runningCount (initState 3) ≤ 2 :=
  ⟨by decide,
    scheduler_running_le_bound (fun _ => 1) (fun _ => 0) 3 2 8 (initState 3)
      (by decide)⟩

/-- C5: admission is FIFO — in every observed state of a `dumb_scheduler`
run, the set of WAITING indices is upward closed, i.e. a job `j` is never
launched (taken out of WAITING) while a job `i < j` is still WAITING. -/
theorem scheduler_fifo_admission (dur : Nat → Nat) (code : Nat → Int)
    (n N fuel : Nat) :
    ∀ s' ∈ (dumb_scheduler dur code n N fuel).2.1,
      ∀ i j : Nat, i < j → j < n →
        s'.job_states[i]? = some JState.waiting →
        s'.job_states[j]? = some JState.waiting := by
  intro s' hs' i j hij hjn hi
  have hinv := runSched_trace_inv dur code N n fuel (initState n)
    (SchedInv_initState n) s' hs'
  obtain ⟨hlen, k, hk, hrem, hiff⟩ := hinv
  have hin : i < n := by omega
  have hki : k ≤ i := (hiff i hin).mp hi
  exact (hiff j hjn).mpr (by omega)

theorem scheduler_fifo_admission_witness :
    initState 3 ∈ (dumb_scheduler (fun _ => 1) (fun _ => 0) 3 2 8).2.1 ∧
      (0 : Nat) < 1 ∧ (1 : Nat) < 3 ∧
      (initState 3).job_states[0]? = some JState.waiting ∧
      (initState 3).job_states[1]? = some JState.waiting :=
  ⟨by decide, by decide, by decide, by decide,
    scheduler_fifo_admission (fun _ => 1) (fun _ => 0) 3 2 8 (initState 3)
      (by decide) 0 1 (by decide) (by decide) (by decide)⟩

/-- C2: with a positive concurrency bound, every job of every batch —
whatever the exit codes — reaches COMPLETE with its exit code recorded
(a failure never aborts the batch or prevents other jobs from completing),
and the scheduler's warning log contains exactly the jobs whose command
exited non-zero. -/
theorem scheduler_failure_isolation (dur : Nat → Nat) (code : Nat → Int)
    (n N : Nat) (hN : 1 ≤ N) :
    allCompleteB
        (dumb_scheduler dur code n N (schedMeasure dur (initState n))).1 =
      true ∧
    (∀ j, j < n →
      (dumb_scheduler dur code n N
        (schedMeasure dur (initState n))).1.job_states[j]? =
        some (JState.complete (code j))) ∧
    (∀ j, j ∈ (dumb_scheduler dur code n N
        (schedMeasure dur (initState n))).2.2 ↔ (j < n ∧ code j ≠ 0)) := by
  have hall : allCompleteB
      (runSched dur code N (schedMeasure dur (initState n))
        (initState n)).1 = true :=
    runSched_term dur code hN (schedMeasure dur (initState n)) (initState n)
      (SchedInv_initState n) (le_refl _)
  have hlen : (runSched dur code N (schedMeasure dur (initState n))
      (initState n)).1.job_states.length = n := by
    rw [runSched_length]
    simp [initState]
  have hcinv := runSched_CInv dur code N (schedMeasure dur (initState n))
    (initState n)
    (fun j c hj => by
      rcases Nat.lt_or_ge j n with hjn | hjn
      · rw [initState_getElem? n j hjn] at hj
        exact absurd (Option.some_inj.mp hj) (by simp)
      · rw [List.getElem?_eq_none (by simpa [initState] using hjn)] at hj
        exact absurd hj (by simp))
  simp only [dumb_scheduler]
  refine ⟨hall, ?_, ?_⟩
  · intro j hjn
    have hjl : j < (runSched dur code N (schedMeasure dur (initState n))
        (initState n)).1.job_states.length := by omega
    obtain ⟨st, hst⟩ : ∃ st, (runSched dur code N
        (schedMeasure dur (initState n))
        (initState n)).1.job_states[j]? = some st :=
      ⟨_, List.getElem?_eq_getElem hjl⟩
    have hcomp := allComplete_getElem hall hst
    rcases st with _ | r | c
    · simp at hcomp
    · simp at hcomp
    · have hc := hcinv j c hst
      rw [hst, hc]
  · intro j
    constructor
    · intro hj
      obtain ⟨hc, hlt⟩ := runSched_warns_sub dur code N
        (schedMeasure dur (initState n)) (initState n) j hj
      exact ⟨by simpa [initState] using hlt, hc⟩
    · rintro ⟨hjn, hc⟩
      exact runSched_warns_sup dur code N (schedMeasure dur (initState n))
        (initState n) j (Or.inl (initState_getElem? n j hjn)) hc hall

theorem scheduler_failure_isolation_witness :
    (1 : Nat) ≤ 2 ∧
      allCompleteB (dumb_scheduler (fun _ => 1) (fun j => if j = 1 then 1 else 0)
        3 2 (schedMeasure (fun _ => 1) (initState 3))).1 = true :=
  ⟨by decide,
    (scheduler_failure_isolation (fun _ => 1) (fun j => if j = 1 then 1 else 0)
      3 2 (by decide)).1⟩

theorem admitLoopAux_bound_zero (dur : Nat → Nat) :
    ∀ (fuel : Nat) (s : SchedState), admitLoopAux dur 0 fuel s = (s, []) := by
  intro fuel s
  cases fuel with
  | zero => rfl
  | succ fuel =>
    have : ¬ (runningCount s < 0 ∧ JState.waiting ∈ s.job_states) := by
      rintro ⟨h, _⟩
      exact Nat.not_lt_zero _ h
    simp [admitLoopAux, this]

theorem pollStates_replicate_waiting (code : Nat → Int) :
    ∀ (m i : Nat),
      pollStates code i (List.replicate m JState.waiting) =
        (List.replicate m JState.waiting, []) := by
  intro m
  induction m with
  | zero => intro i; rfl
  | succ m ih =>
    intro i
    simp only [List.replicate_succ, pollStates, ih (i + 1)]

theorem schedStep_bound_zero (dur : Nat → Nat) (code : Nat → Int) (n : Nat) :
    schedStep dur code 0 (initState n) =
      (initState n, [initState n], []) := by
  have hadm : admitLoop dur 0 (initState n) = (initState n, []) :=
    admitLoopAux_bound_zero dur _ _
  have hpoll : pollCycle code (initState n) = (initState n, []) := by
    rw [pollCycle]
    simp only [initState, pollStates_replicate_waiting code n 0]
  rw [schedStep, hadm]
  simp only [hpoll]
  rfl

theorem allCompleteB_initState_pos {n : Nat} (hn : 1 ≤ n) :
    allCompleteB (initState n) = false := by
  rcases n with _ | m
  · omega
  · rfl

theorem runSched_bound_zero (dur : Nat → Nat) (code : Nat → Int) {n : Nat}
    (hn : 1 ≤ n) :
    ∀ fuel : Nat,
      (runSched dur code 0 fuel (initState n)).1 = initState n ∧
      (∀ s' ∈ (runSched dur code 0 fuel (initState n)).2.1,
        s' = initState n) ∧
      (runSched dur code 0 fuel (initState n)).2.2 = [] := by
  intro fuel
  induction fuel with
  | zero =>
    rw [runSched_zero]
    exact ⟨rfl, fun s' hs' => List.mem_singleton.mp hs', rfl⟩
  | succ fuel ih =>
    obtain ⟨ih1, ih2, ih3⟩ := ih
    have hac := allCompleteB_initState_pos hn
    have hrw : runSched dur code 0 (fuel + 1) (initState n) =
        ((runSched dur code 0 fuel (initState n)).1,
          initState n :: initState n ::
            (runSched dur code 0 fuel (initState n)).2.1,
          (runSched dur code 0 fuel (initState n)).2.2) := by
      rw [runSched_succ_neg dur code 0 fuel (initState n) hac,
        schedStep_bound_zero dur code n]
      rfl
    rw [hrw]
    refine ⟨ih1, ?_, ih3⟩
    intro s' hs'
    rcases List.mem_cons.mp hs' with rfl | hs'
    · rfl
    rcases List.mem_cons.mp hs' with rfl | hs'
    · rfl
    · exact ih2 s' hs'

/-- C9: on an empty job list the scheduler's loop condition is immediately
satisfied (`np.all` of an empty array is true), so it exits at once without
launching anything; on a non-empty job list with `max_process_num = 0` the
admission condition `running < 0` can never hold, so no job is ever
launched, no job ever completes, and the loop never terminates: however
much fuel the loop is given, every job is still WAITING and the exit
condition is still false. -/
theorem scheduler_empty_and_zero_bound (dur : Nat → Nat) (code : Nat → Int) :
    (∀ N fuel : Nat,
      dumb_scheduler dur code 0 N fuel = (initState 0, [initState 0], [])) ∧
    (∀ n fuel : Nat, 1 ≤ n →
      (dumb_scheduler dur code n 0 fuel).1 = initState n ∧
      allCompleteB (initState n) = false ∧
      (∀ s' ∈ (dumb_scheduler dur code n 0 fuel).2.1, s' = initState n) ∧
      (dumb_scheduler dur code n 0 fuel).2.2 = []) := by
  constructor
  · intro N fuel
    cases fuel with
    | zero => rfl
    | succ fuel => exact runSched_succ_pos dur code N fuel (initState 0) rfl
  · intro n fuel hn
    obtain ⟨h1, h2, h3⟩ := runSched_bound_zero dur code hn fuel
    exact ⟨h1, allCompleteB_initState_pos hn, h2, h3⟩

theorem scheduler_empty_and_zero_bound_witness :
    (1 : Nat) ≤ 2 ∧ (dumb_scheduler (fun _ => 0) (fun _ => 0) 2 0 5).1 =
      initState 2 :=
  ⟨by decide,
    ((scheduler_empty_and_zero_bound (fun _ => 0) (fun _ => 0)).2 2 5
      (by decide)).1⟩

end GenomicReplace
